import Mathlib

/-!
Formal model of the autosuggestion engines in `src/autosuggestion/`
(`simple_suggesters.py` and `ngrams_suggesters.py`).

Python strings are modelled as lists of characters (`Str`); Python's
lexicographic string comparison is modelled by `strLt`/`strLe`; Python's
`s.startswith(p)` is `p.isPrefixOf s`; the slice `s[0:k]` is `s.take k`;
`range(n)` is `List.range n` (empty for non-positive bounds, matching
Python).  Python `dict`s (which preserve insertion order) are modelled as
association lists.  Floating-point percentages are modelled by rationals:
all comparisons a claim depends on involve values (`0`, `1`, small exact
ratios) at which IEEE doubles and rationals agree.  Generators are
modelled by the lists of the elements they yield, fully consumed.
-/

/-- A Python string: a finite sequence of characters, compared by code point. -/
abbrev Str := List Char

/-- Build a `Str` from a Lean string literal. -/
def str (s : String) : Str := s.data

/-- Python's `<` on strings: strict lexicographic order by code point. -/
def strLt : Str → Str → Bool
  | _, [] => false
  | [], _ :: _ => true
  | a :: as, b :: bs => if a < b then true else if b < a then false else strLt as bs

/-- Python's `<=` on strings: reflexive lexicographic order by code point. -/
def strLe : Str → Str → Bool
  | [], _ => true
  | _ :: _, [] => false
  | a :: as, b :: bs => if a < b then true else if b < a then false else strLe as bs

/-- The ordering `strLe`, as a relation. -/
def strLeP (a b : Str) : Prop := strLe a b = true

instance : DecidableRel strLeP := fun a b => by unfold strLeP; infer_instance

theorem strLt_eq_not_strLe : ∀ a b : Str, strLt a b = !(strLe b a)
  | [], [] => rfl
  | [], _ :: _ => rfl
  | _ :: _, [] => rfl
  | a :: as, b :: bs => by
    simp only [strLt, strLe]
    rcases lt_trichotomy a b with h | h | h
    · simp [h, not_lt_of_gt h, ne_of_gt h]
    · subst h
      simp [lt_irrefl, strLt_eq_not_strLe as bs]
    · simp [h, not_lt_of_gt h]

theorem strLe_refl : ∀ a : Str, strLe a a = true
  | [] => rfl
  | _ :: as => by simp [strLe, strLe_refl as]

theorem strLe_cons_cons (a b : Char) (as bs : Str) : strLe (a :: as) (b :: bs) =
    if a < b then true else if b < a then false else strLe as bs := rfl

theorem strLe_trans : ∀ a b c : Str, strLe a b = true → strLe b c = true →
    strLe a c = true
  | [], _, _, _, _ => rfl
  | _ :: _, [], _, h, _ => by simp [strLe] at h
  | _ :: _, _ :: _, [], _, h => by simp [strLe] at h
  | a :: as, b :: bs, c :: cs, hab, hbc => by
    rw [strLe_cons_cons] at hab hbc
    rw [strLe_cons_cons]
    rcases lt_trichotomy a c with hac | hac | hac
    · rw [if_pos hac]
    · subst hac
      rw [if_neg (lt_irrefl a), if_neg (lt_irrefl a)]
      rcases lt_trichotomy a b with h1 | h1 | h1
      · rw [if_neg (lt_asymm h1), if_pos h1] at hbc
        simp at hbc
      · subst h1
        rw [if_neg (lt_irrefl a), if_neg (lt_irrefl a)] at hab hbc
        exact strLe_trans as bs cs hab hbc
      · rw [if_neg (lt_asymm h1), if_pos h1] at hab
        simp at hab
    · rw [if_neg (lt_asymm hac), if_pos hac]
      exfalso
      rcases lt_trichotomy a b with h1 | h1 | h1
      · rcases lt_trichotomy b c with h2 | h2 | h2
        · exact lt_irrefl a (lt_trans (lt_trans h1 h2) hac)
        · subst h2
          exact lt_irrefl a (lt_trans h1 hac)
        · rw [if_neg (lt_asymm h2), if_pos h2] at hbc
          simp at hbc
      · subst h1
        rw [if_neg (lt_asymm hac), if_pos hac] at hbc
        simp at hbc
      · rw [if_neg (lt_asymm h1), if_pos h1] at hab
        simp at hab

theorem strLe_total : ∀ a b : Str, strLe a b = true ∨ strLe b a = true
  | [], _ => Or.inl rfl
  | _ :: _, [] => Or.inr rfl
  | a :: as, b :: bs => by
    simp only [strLe]
    rcases lt_trichotomy a b with h | h | h
    · simp [h]
    · subst h; simpa using strLe_total as bs
    · simp [h, not_lt_of_gt h]

instance : IsTotal Str strLeP := ⟨fun a b => strLe_total a b⟩

instance : IsTrans Str strLeP := ⟨fun a b c => strLe_trans a b c⟩

theorem strLt_of_le_of_lt {a b c : Str} (h1 : strLe a b = true)
    (h2 : strLt b c = true) : strLt a c = true := by
  rw [strLt_eq_not_strLe] at h2 ⊢
  simp only [Bool.not_eq_true'] at h2 ⊢
  cases hca : strLe c a with
  | false => rfl
  | true => exact absurd (strLe_trans c a b hca h1) (by simp [h2])

theorem strLe_of_le_of_not_lt {a b x : Str} (h1 : strLe a b = true)
    (h2 : strLt a x = false) : strLt b x = false := by
  rw [strLt_eq_not_strLe] at h2 ⊢
  simp only [Bool.not_eq_false'] at h2 ⊢
  exact strLe_trans x a b h2 h1

/-- A prefix of a string is `<=` the string in Python's order. -/
theorem strLe_of_isPrefixOf : ∀ p s : Str, p.isPrefixOf s = true → strLe p s = true
  | [], _, _ => rfl
  | _ :: _, [], h => by simp [List.isPrefixOf] at h
  | a :: as, b :: bs, h => by
    simp only [List.isPrefixOf, Bool.and_eq_true, beq_iff_eq] at h
    obtain ⟨rfl, h2⟩ := h
    simpa [strLe] using strLe_of_isPrefixOf as bs h2

/-- Sandwich property of lexicographic order: a string between `p` and a
string that extends `p` also extends `p`. -/
theorem isPrefixOf_of_between : ∀ p x y : Str, strLe p x = true →
    strLe x y = true → p.isPrefixOf y = true → p.isPrefixOf x = true
  | [], _, _, _, _, _ => List.isPrefixOf_nil_left
  | _ :: _, _, [], _, _, hpy => by
    rw [List.isPrefixOf_cons_nil] at hpy
    simp at hpy
  | _ :: _, [], _ :: _, hpx, _, _ => by simp [strLe] at hpx
  | c :: p, a :: xs, b :: ys, hpx, hxy, hpy => by
    rw [List.isPrefixOf_cons₂] at hpy ⊢
    simp only [Bool.and_eq_true, beq_iff_eq] at hpy ⊢
    obtain ⟨rfl, hpy2⟩ := hpy
    rw [strLe_cons_cons] at hpx hxy
    rcases lt_trichotomy c a with h1 | h1 | h1
    · rw [if_neg (lt_asymm h1), if_pos h1] at hxy
      simp at hxy
    · subst h1
      rw [if_neg (lt_irrefl c), if_neg (lt_irrefl c)] at hpx hxy
      exact ⟨rfl, isPrefixOf_of_between p xs ys hpx hxy hpy2⟩
    · rw [if_neg (lt_asymm h1), if_pos h1] at hpx
      simp at hpx

/-- A string's prefix test is equivalent to comparing with its leading slice. -/
theorem isPrefixOf_iff_eq_take : ∀ p s : Str,
    p.isPrefixOf s = true ↔ p = s.take p.length
  | [], _ => by simp [List.isPrefixOf]
  | _ :: _, [] => by simp [List.isPrefixOf]
  | a :: as, b :: bs => by
    simp only [List.isPrefixOf, Bool.and_eq_true, beq_iff_eq, List.length_cons,
      List.take_succ_cons, List.cons.injEq]
    exact and_congr Iff.rfl (isPrefixOf_iff_eq_take as bs)

/-- Modelled from the external `Levenshtein` package (`levenshtein.distance`):
the standard Levenshtein edit distance (minimum number of single-character
insertions, deletions and substitutions), by the usual recursion. -/
def lev : Str → Str → Nat
  | [], b => b.length
  | a :: as, [] => (a :: as).length
  | a :: as, b :: bs =>
    if a = b then lev as bs
    else 1 + min (lev as (b :: bs)) (min (lev (a :: as) bs) (lev as bs))
termination_by a b => a.length + b.length
decreasing_by all_goals simp_arith

/-- Edit distance is zero exactly between equal strings. -/
theorem lev_eq_zero_iff : ∀ a b : Str, lev a b = 0 ↔ a = b
  | [], [] => by simp [lev]
  | [], _ :: _ => by simp [lev]
  | _ :: _, [] => by simp [lev]
  | a :: as, b :: bs => by
    rw [lev]
    split
    · next h => subst h; simpa using lev_eq_zero_iff as bs
    · next h => simp [Nat.add_comm, h]

/-- Python's slice `l[start:stop]` for a non-negative `start` and an
arbitrary `stop`: a negative `stop` wraps around to `len(l) + stop`
(clamped below at 0), a non-negative `stop` is clamped above at `len(l)`,
and the result is empty when the effective stop does not exceed `start`. -/
def pySlice (l : Str) (start : Nat) (stop : Int) : Str :=
  let stopN : Nat := if stop < 0 then ((l.length : Int) + stop).toNat
    else stop.toNat
  (l.take stopN).drop start

/-- For a stop of the form `i + size` with `size >= 1`, the Python slice
is the plain length-`size` window at offset `i`. -/
theorem pySlice_eq_drop_take (l : Str) (i : Nat) (size : Int)
    (h : 1 ≤ size) : pySlice l i ((i : Int) + size) =
      (l.drop i).take size.toNat := by
  unfold pySlice
  rw [if_neg (by omega)]
  have h2 : ((i : Int) + size).toNat = i + size.toNat := by omega
  rw [h2, List.drop_take]
  congr 1
  omega

/-- A slice whose stop is its start is empty. -/
theorem pySlice_self_eq_nil (l : Str) (i : Nat) :
    pySlice l i (i : Int) = [] := by
  unfold pySlice
  rw [if_neg (by omega)]
  have h2 : ((i : Int)).toNat = i := by omega
  rw [h2, List.drop_take]
  simp

/-- Python's `ngrams(text, size, sentinel)` from `ngrams_suggesters.py`:
left-pad with `size - 1` sentinels (no padding when `size <= 1`, as in
Python, where a string times a non-positive int is empty) and emit each
slice `text[i:i+size]` of the padded text for `i` in `range(end)`, with
Python's wrap-around semantics for a negative slice stop. -/
def ngrams (text : Str) (size : Int) (sentinel : Char) : List Str :=
  let padding : Str := List.replicate (size - 1).toNat sentinel
  let padded : Str := padding ++ text
  let length : Int := padded.length
  let e : Int := length - size + 1
  (List.range e.toNat).map (fun i => pySlice padded i ((i : Int) + size))

/-- Association list modelling a Python `dict` from strings to lists of
strings: insertion-ordered, keys unique by construction. -/
abbrev Dict := List (Str × List Str)

/-- Python's `d[k] = [v]` / `d[k].append(v)` pattern used by both `index`
methods: append `v` to the bucket of `k`, creating the bucket if absent. -/
def dictAppend : Dict → Str → Str → Dict
  | [], k, v => [(k, [v])]
  | (k', vs) :: rest, k, v =>
    if k' = k then (k', vs ++ [v]) :: rest else (k', vs) :: dictAppend rest k v

/-- Key lookup in the modelled `dict` (`k in d` / `d[k]`). -/
def dictFind : Dict → Str → Option (List Str)
  | [], _ => none
  | (k', vs) :: rest, k => if k' = k then some vs else dictFind rest k

/-- Python's `d.get(k, [])`. -/
def dictGet (d : Dict) (k : Str) : List Str := (dictFind d k).getD []

/-- Model of `EdgeNGramSuggester` (`ngrams_suggesters.py`): a dictionary
from every non-empty leading slice of an indexed string to the strings
indexed under it. -/
structure EdgeNGramSuggester where
  data : Dict

/-- The inner loop of `EdgeNGramSuggester.index` for one suggestion `s`:
for each `i in range(len(s))`, append `s` to the bucket of `s[0:i+1]`. -/
def edgeInsertString (d : Dict) (s : Str) : Dict :=
  (List.range s.length).foldl (fun d i => dictAppend d (s.take (i + 1)) s) d

/-- Model of `EdgeNGramSuggester.index`: for each suggestion `s` and each
`i in range(len(s))`, append `s` to the bucket of `s[0:i+1]`. -/
def EdgeNGramSuggester.index (e : EdgeNGramSuggester) (suggestions : List Str) :
    EdgeNGramSuggester :=
  ⟨suggestions.foldl edgeInsertString e.data⟩

/-- Model of `EdgeNGramSuggester.search`: the bucket of the query verbatim,
or nothing when the key is absent. -/
def EdgeNGramSuggester.search (e : EdgeNGramSuggester) (pre : Str) : List Str :=
  match dictFind e.data pre with
  | some l => l
  | none => []

/-- One step of the candidate-tally loop of `NGramSuggester.search`:
`suggestions[s] += 1` with insertion on first encounter, preserving
Python's dict insertion order. -/
def bumpCount : List (Str × Nat) → Str → List (Str × Nat)
  | [], s => [(s, 1)]
  | (s', c) :: rest, s =>
    if s' = s then (s', c + 1) :: rest else (s', c) :: bumpCount rest s

/-- Model of `NGramSuggester` (`ngrams_suggesters.py`): an n-gram index
with a configured `ngram_size` (Python `int`, default 2). -/
structure NGramSuggester where
  data : Dict
  ngram_size : Int

/-- Model of `NGramSuggester.index`: append each suggestion to the bucket
of each of its n-grams, with multiplicity. -/
def NGramSuggester.index (g : NGramSuggester) (suggestions : List Str) :
    NGramSuggester :=
  ⟨suggestions.foldl
    (fun d s => (ngrams s g.ngram_size '_').foldl (fun d ng => dictAppend d ng s) d)
    g.data,
   g.ngram_size⟩

/-- The candidate-count dictionary both search methods of `NGramSuggester`
build: for each n-gram of the query, for each string in that n-gram's
bucket, increment the string's count. -/
def NGramSuggester.tally (g : NGramSuggester) (pre : Str) : List (Str × Nat) :=
  (ngrams pre g.ngram_size '_').foldl
    (fun acc ng => (dictGet g.data ng).foldl bumpCount acc) []

/-- Model of `NGramSuggester.search`: yield, in tally order, the candidates
whose matched-gram ratio strictly exceeds `match_percentage`. -/
def NGramSuggester.search (g : NGramSuggester) (pre : Str)
    (match_percentage : ℚ) : List Str :=
  let total_grams : ℚ := ((ngrams pre g.ngram_size '_').length : ℚ)
  ((g.tally pre).filter
      (fun sc => decide ((sc.2 : ℚ) / total_grams > match_percentage))).map
    Prod.fst

/-- Model of `NGramSuggester.search_leveinshtein`: the same tally and ratio
threshold as `search`, then yield only candidates whose edit distance from
the query to their leading slice of the query's length is strictly below
`max_leveinshtein_distance`. -/
def NGramSuggester.search_leveinshtein (g : NGramSuggester) (pre : Str)
    (match_percentage : ℚ) (max_leveinshtein_distance : Int) : List Str :=
  let total_grams : ℚ := ((ngrams pre g.ngram_size '_').length : ℚ)
  ((g.tally pre).filter
      (fun sc =>
        decide ((sc.2 : ℚ) / total_grams > match_percentage) &&
        decide ((lev pre (sc.1.take pre.length) : Int) <
          max_leveinshtein_distance))).map
    Prod.fst

/-- Model of `BruteForceSuggester` (`simple_suggesters.py`): a flat list of
all indexed strings, in indexing order. -/
structure BruteForceSuggester where
  data : List Str

/-- Model of `BruteForceSuggester.index`: append each suggestion. -/
def BruteForceSuggester.index (b : BruteForceSuggester)
    (suggestions : List Str) : BruteForceSuggester :=
  ⟨suggestions.foldl (fun d s => d ++ [s]) b.data⟩

/-- Model of `BruteForceSuggester.search`: scan the list, yielding every
entry that starts with the query. -/
def BruteForceSuggester.search (b : BruteForceSuggester) (pre : Str) :
    List Str :=
  b.data.filter (fun s => pre.isPrefixOf s)

/-- Model of `BruteForceSuggester.search_leveinshtein`: yield every entry
whose leading slice of the query's length is within `max_edit_distance`
(inclusive) of the query. -/
def BruteForceSuggester.search_leveinshtein (b : BruteForceSuggester)
    (pre : Str) (max_edit_distance : Int) : List Str :=
  b.data.filter (fun s => decide ((lev pre (s.take pre.length) : Int) ≤ max_edit_distance))

/-- Model of Python's `list.sort()` on strings: the ascending stable sort.
Insertion sort is stable, so it computes the same list as CPython's
timsort. -/
def pySort (l : List Str) : List Str := List.insertionSort strLeP l

/-- Model of `BinarySearchSuggester` (`simple_suggesters.py`): a list kept
sorted by re-sorting after each `index` call. -/
structure BinarySearchSuggester where
  data : List Str

/-- Model of `BinarySearchSuggester.index`: append all suggestions, then
sort the whole list ascending. -/
def BinarySearchSuggester.index (b : BinarySearchSuggester)
    (suggestions : List Str) : BinarySearchSuggester :=
  ⟨pySort (suggestions.foldl (fun d s => d ++ [s]) b.data)⟩

/-- Model of CPython's `bisect.bisect_left(a, x)` loop: binary search for
the leftmost insertion point.  `a.getD mid []` models `a[mid]`, which the
loop only reads in bounds (`lo < hi <= len(a)`). -/
def bisectLeft (a : List Str) (x : Str) (lo hi : Nat) : Nat :=
  if h : lo < hi then
    if strLt (a.getD ((lo + hi) / 2) []) x then
      bisectLeft a x ((lo + hi) / 2 + 1) hi
    else bisectLeft a x lo ((lo + hi) / 2)
  else lo
termination_by hi - lo
decreasing_by
  · have h1 : lo ≤ (lo + hi) / 2 := (Nat.le_div_iff_mul_le (by omega)).mpr (by omega)
    omega
  · have h2 : (lo + hi) / 2 < hi := (Nat.div_lt_iff_lt_mul (by omega)).mpr (by omega)
    omega

/-- Model of `BinarySearchSuggester.search`: binary-search the insertion
point of the query, then yield entries while they start with the query,
stopping at the first that does not. -/
def BinarySearchSuggester.search (b : BinarySearchSuggester) (pre : Str) :
    List Str :=
  let start_position := bisectLeft b.data pre 0 b.data.length
  (b.data.drop start_position).takeWhile (fun s => pre.isPrefixOf s)

example : ngrams (str "foo") 2 '_' = [str "_f", str "fo", str "oo"] := by decide

example : ngrams (str "ab") 2 '_' = [str "_a", str "ab"] := by decide

example : ngrams (str "a") 3 '_' = [str "__a"] := by decide

example :
    (EdgeNGramSuggester.index ⟨[]⟩ [str "cat", str "car", str "dog"]).search
      (str "ca") = [str "cat", str "car"] := by decide

theorem ngrams_length_of_pos (text : Str) (size : Int) (sentinel : Char)
    (h : 1 ≤ size) : (ngrams text size sentinel).length = text.length := by
  simp only [ngrams, List.length_map, List.length_range, List.length_append,
    List.length_replicate]
  omega

/-- C5: for `size >= 1` and a one-character sentinel, `ngrams` yields
exactly `len(text)` n-grams, the `i`-th being the length-`size` window of
the sentinel-padded text starting at position `i` (so the windows appear
in left-to-right order); in particular `ngrams("foo", 2, "_")` is
`["_f", "fo", "oo"]` and `ngrams("a", 3, "_")` is `["__a"]`. -/
theorem ngrams_padded_windows (text : Str) (size : Int) (sentinel : Char)
    (h : 1 ≤ size) :
    (ngrams text size sentinel).length = text.length ∧
    (∀ i, i < text.length →
      (ngrams text size sentinel).getD i [] =
        ((List.replicate (size - 1).toNat sentinel ++ text).drop i).take
          size.toNat ∧
      ((ngrams text size sentinel).getD i []).length = size.toNat) ∧
    ngrams (str "foo") 2 '_' = [str "_f", str "fo", str "oo"] ∧
    ngrams (str "a") 3 '_' = [str "__a"] := by
  refine ⟨ngrams_length_of_pos text size sentinel h, ?_, by decide, by decide⟩
  intro i hi
  have hi' : i < (ngrams text size sentinel).length := by
    rw [ngrams_length_of_pos text size sentinel h]; exact hi
  have hwin : (ngrams text size sentinel).getD i [] =
      ((List.replicate (size - 1).toNat sentinel ++ text).drop i).take
        size.toNat := by
    rw [List.getD_eq_getElem?_getD, List.getElem?_eq_getElem hi']
    simp only [ngrams, List.getElem_map, List.getElem_range, Option.getD_some]
    exact pySlice_eq_drop_take _ i size h
  refine ⟨hwin, ?_⟩
  rw [hwin]
  simp only [List.length_take, List.length_drop, List.length_append,
    List.length_replicate]
  omega

/-- C5 witness: the theorem instantiated at `text = "ab"`, `size = 2`. -/
theorem ngrams_padded_windows_witness :
    (ngrams (str "ab") 2 '_').length = (str "ab").length :=
  (ngrams_padded_windows (str "ab") 2 '_' (by decide)).1

/-- C3 counterexample: `ngrams("ab", 0, "_")` raises nothing and silently
yields a sequence (three empty strings), contradicting the claim that a
`size < 1` call fails with an `InvalidArgument` condition. -/
theorem ngrams_nonpositive_size_counterexample :
    ngrams (str "ab") 0 '_' = [[], [], []] := by decide

/-- C3 amended: for `size < 1` the code does not fail; `ngrams` silently
produces a sequence of `len(text) - size + 1` windows (the padding is
empty), and for `size = 0` every window is the empty string.  (For
negative sizes the slice stop `i + size` wraps around in Python, so
leading windows can be non-empty.) -/
theorem ngrams_nonpositive_size_silent (text : Str) (size : Int)
    (sentinel : Char) (h : size < 1) :
    (ngrams text size sentinel).length =
      ((text.length : Int) - size + 1).toNat ∧
    ngrams text 0 sentinel = List.replicate (text.length + 1) [] := by
  constructor
  · simp only [ngrams, List.length_map, List.length_range, List.length_append,
      List.length_replicate]
    omega
  · have h0 : ((0 : Int) - 1).toNat = 0 := rfl
    simp only [ngrams, h0, List.replicate_zero, List.nil_append]
    have hf : (fun i : Nat => pySlice text i ((i : Int) + 0)) =
        fun i : Nat => ([] : Str) := by
      funext i
      rw [add_zero]
      exact pySlice_self_eq_nil text i
    rw [hf, List.map_const', List.length_range]
    congr 1

/-- C3 amended witness: the theorem instantiated at `text = "a"`, `size = 0`. -/
theorem ngrams_nonpositive_size_silent_witness :
    ngrams (str "a") 0 '_' = List.replicate ((str "a").length + 1) [] :=
  (ngrams_nonpositive_size_silent (str "a") 0 '_' (by decide)).2

/-- C4 counterexample: searching an indexed `NGramSuggester` with the
empty string raises nothing and yields a result sequence (the empty one),
contradicting the claim that it fails with an `InvalidArgument`
condition. -/
theorem ngram_empty_query_counterexample :
    NGramSuggester.search (NGramSuggester.index ⟨[], 2⟩ [str "ab"]) []
      (9 / 10) = [] := by decide

/-- C4 amended: for any index contents and any `ngram_size >= 1`
(including the default 2), `search` on the empty query does not fail: the
query produces no n-grams, so the candidate dictionary stays empty, the
score division is never executed (hence no division by zero), and the
empty sequence is yielded. -/
theorem ngram_empty_query_yields_nothing (d : Dict) (sz : Int)
    (h : 1 ≤ sz) (mp : ℚ) : NGramSuggester.search ⟨d, sz⟩ [] mp = [] := by
  have hg : ngrams [] sz '_' = [] := by
    simp [ngrams]
    omega
  simp [NGramSuggester.search, NGramSuggester.tally, hg]

/-- C4 amended witness: the theorem instantiated at an index built from
`["ab"]` with the default size 2 and the default threshold. -/
theorem ngram_empty_query_yields_nothing_witness :
    NGramSuggester.search ⟨dictAppend (dictAppend [] (str "_a") (str "ab"))
      (str "ab") (str "ab"), 2⟩ [] (9 / 10) = [] :=
  ngram_empty_query_yields_nothing _ 2 (by decide) (9 / 10)

theorem bin_index_sorted_aux (b : BinarySearchSuggester)
    (suggestions : List Str) :
    List.Pairwise strLeP (b.index suggestions).data :=
  List.sorted_insertionSort strLeP _

/-- C7: after any `index` call on a `BinarySearchSuggester` in any state
(hence after every call of any sequence of `index` calls), the internal
list is sorted ascending in Python's lexicographic string order. -/
theorem binary_index_sorted (b : BinarySearchSuggester)
    (suggestions : List Str) :
    List.Pairwise strLeP (b.index suggestions).data :=
  bin_index_sorted_aux b suggestions

/-- C8: on any `BruteForceSuggester` state, the fuzzy search with
`max_edit_distance = 0` yields exactly the same sequence, in the same
order, as the exact search: a Levenshtein distance of at most 0 between
the query and an entry's leading slice of the query's length holds exactly
when the entry starts with the query. -/
theorem brute_fuzzy_zero_eq_search (b : BruteForceSuggester) (pre : Str) :
    b.search_leveinshtein pre 0 = b.search pre := by
  unfold BruteForceSuggester.search_leveinshtein BruteForceSuggester.search
  apply List.filter_congr
  intro s _
  have key : ((lev pre (s.take pre.length) : Int) ≤ 0) ↔
      pre.isPrefixOf s = true := by
    have h1 : ((lev pre (s.take pre.length) : Int) ≤ 0) ↔
        lev pre (s.take pre.length) = 0 := by omega
    rw [h1, lev_eq_zero_iff, isPrefixOf_iff_eq_take]
  cases hb : pre.isPrefixOf s with
  | false =>
    rw [hb] at key
    simp only [Bool.false_eq_true, iff_false] at key
    simp [key]
  | true =>
    rw [hb] at key
    simp [key]

/-- C9: on any `NGramSuggester` state, query, threshold and distance
bound, the fuzzy search yields exactly the candidates of `search` whose
Levenshtein distance between the query and the candidate's leading slice
of the query's length (the whole candidate when shorter) is strictly below
`max_leveinshtein_distance`, in the same order. -/
theorem ngram_fuzzy_eq_search_filter (g : NGramSuggester) (pre : Str)
    (mp : ℚ) (maxd : Int) :
    g.search_leveinshtein pre mp maxd =
      (g.search pre mp).filter
        (fun s => decide ((lev pre (s.take pre.length) : Int) < maxd)) := by
  simp only [NGramSuggester.search_leveinshtein, NGramSuggester.search]
  rw [List.filter_map, List.filter_filter]
  congr 1
  apply List.filter_congr
  intro sc _
  simp only [Function.comp_apply]
  exact Bool.and_comm _ _

theorem dictGet_dictAppend_same : ∀ (d : Dict) (k v : Str),
    dictGet (dictAppend d k v) k = dictGet d k ++ [v]
  | [], k, v => by simp [dictAppend, dictGet, dictFind]
  | (k', vs) :: rest, k, v => by
    by_cases h : k' = k
    · subst h
      simp [dictAppend, dictGet, dictFind]
    · simp only [dictAppend, if_neg h, dictGet, dictFind]
      exact dictGet_dictAppend_same rest k v

theorem dictGet_dictAppend_other : ∀ (d : Dict) (k v g : Str), k ≠ g →
    dictGet (dictAppend d k v) g = dictGet d g
  | [], k, v, g, h => by simp [dictAppend, dictGet, dictFind, h]
  | (k', vs) :: rest, k, v, g, h => by
    by_cases h' : k' = k
    · subst h'
      simp [dictAppend, dictGet, dictFind, h]
    · simp only [dictAppend, if_neg h', dictGet, dictFind]
      by_cases h'' : k' = g
      · rw [if_pos h'', if_pos h'']
      · rw [if_neg h'', if_neg h'']
        exact dictGet_dictAppend_other rest k v g h

theorem mem_dictGet_dictAppend {x : Str} {d : Dict} {g : Str} (k v : Str)
    (h : x ∈ dictGet d g) : x ∈ dictGet (dictAppend d k v) g := by
  by_cases hk : k = g
  · subst hk
    rw [dictGet_dictAppend_same]
    exact List.mem_append_left _ h
  · rw [dictGet_dictAppend_other d k v g hk]
    exact h

theorem mem_dictGet_foldl_dictAppend {x : Str} (v : Str) :
    ∀ (ks : List Str) (d : Dict) (g : Str), x ∈ dictGet d g →
      x ∈ dictGet (ks.foldl (fun d k => dictAppend d k v) d) g
  | [], _, _, h => h
  | k :: ks, d, g, h =>
    mem_dictGet_foldl_dictAppend v ks (dictAppend d k v) g
      (mem_dictGet_dictAppend k v h)

theorem self_mem_dictGet_foldl_dictAppend (v : Str) :
    ∀ (ks : List Str) (d : Dict) (g : Str), g ∈ ks →
      v ∈ dictGet (ks.foldl (fun d k => dictAppend d k v) d) g
  | [], _, _, h => absurd h (List.not_mem_nil _)
  | k :: ks, d, g, h => by
    rcases List.mem_cons.mp h with rfl | h'
    · exact mem_dictGet_foldl_dictAppend v ks _ g
        (by rw [dictGet_dictAppend_same]; exact List.mem_append_right _ (by simp))
    · exact self_mem_dictGet_foldl_dictAppend v ks _ g h'

theorem edgeInsertString_eq_foldl_keys (d : Dict) (s : Str) :
    edgeInsertString d s =
      ((List.range s.length).map (fun i => s.take (i + 1))).foldl
        (fun d k => dictAppend d k s) d := by
  rw [edgeInsertString, List.foldl_map]

theorem mem_dictGet_edgeInsertString {x g : Str} (d : Dict) (s : Str)
    (h : x ∈ dictGet d g) : x ∈ dictGet (edgeInsertString d s) g := by
  rw [edgeInsertString_eq_foldl_keys]
  exact mem_dictGet_foldl_dictAppend s _ d g h

theorem self_mem_edgeInsertString (d : Dict) (s : Str) (i : Nat)
    (h1 : 1 ≤ i) (h2 : i ≤ s.length) :
    s ∈ dictGet (edgeInsertString d s) (s.take i) := by
  rw [edgeInsertString_eq_foldl_keys]
  apply self_mem_dictGet_foldl_dictAppend
  apply List.mem_map.mpr
  refine ⟨i - 1, List.mem_range.mpr (by omega), ?_⟩
  congr 1
  omega

theorem mem_dictGet_edgeIndexFold {x g : Str} :
    ∀ (C : List Str) (d : Dict), x ∈ dictGet d g →
      x ∈ dictGet (C.foldl edgeInsertString d) g
  | [], _, h => h
  | s :: C, d, h =>
    mem_dictGet_edgeIndexFold C (edgeInsertString d s)
      (mem_dictGet_edgeInsertString d s h)

theorem edge_search_eq_dictGet (e : EdgeNGramSuggester) (pre : Str) :
    e.search pre = dictGet e.data pre := by
  unfold EdgeNGramSuggester.search dictGet
  cases h : dictFind e.data pre <;> simp

theorem self_mem_dictGet_edgeIndexFold (s : Str) (i : Nat) (h1 : 1 ≤ i)
    (h2 : i ≤ s.length) : ∀ (C : List Str) (d : Dict), s ∈ C →
      s ∈ dictGet (C.foldl edgeInsertString d) (s.take i)
  | [], _, hs => absurd hs (List.not_mem_nil _)
  | a :: C, d, hs => by
    rcases List.mem_cons.mp hs with rfl | h'
    · exact mem_dictGet_edgeIndexFold C _
        (self_mem_edgeInsertString d s i h1 h2)
    · exact self_mem_dictGet_edgeIndexFold s i h1 h2 C (edgeInsertString d a) h'

/-- C6: for every prior state, every indexed corpus `C`, every `s ∈ C` and
every `i` with `1 <= i <= len(s)`, searching for the length-`i` leading
slice of `s` yields a sequence containing `s`. -/
theorem edge_search_contains_indexed (e : EdgeNGramSuggester)
    (C : List Str) (s : Str) (i : Nat) (hs : s ∈ C) (h1 : 1 ≤ i)
    (h2 : i ≤ s.length) : s ∈ (e.index C).search (s.take i) := by
  rw [edge_search_eq_dictGet]
  exact self_mem_dictGet_edgeIndexFold s i h1 h2 C e.data hs

/-- C6 witness: indexing `["abc"]` from the empty state, the search for
`"ab"` (the slice of length 2) contains `"abc"`. -/
theorem edge_search_contains_indexed_witness :
    str "abc" ∈ (EdgeNGramSuggester.index ⟨[]⟩ [str "abc"]).search
      ((str "abc").take 2) :=
  edge_search_contains_indexed ⟨[]⟩ [str "abc"] (str "abc") 2 (by decide)
    (by decide) (by decide)

/-- Well-formedness invariant of the edge n-gram index: every key and
every stored value is a non-empty string. -/
def edgeWF (d : Dict) : Prop :=
  ∀ kv ∈ d, kv.1 ≠ ([] : Str) ∧ ∀ v ∈ kv.2, v ≠ ([] : Str)

theorem edgeWF_dictAppend : ∀ (d : Dict) (k v : Str), edgeWF d →
    k ≠ [] → v ≠ [] → edgeWF (dictAppend d k v)
  | [], k, v, _, hk, hv => by
    intro kv hkv
    simp only [dictAppend, List.mem_singleton] at hkv
    subst hkv
    exact ⟨hk, by simpa using hv⟩
  | (k', vs) :: rest, k, v, hwf, hk, hv => by
    by_cases h : k' = k
    · subst h
      intro kv hkv
      simp only [dictAppend, if_pos rfl] at hkv
      rcases List.mem_cons.mp hkv with rfl | hkv
      · refine ⟨(hwf (k', vs) (by simp)).1, ?_⟩
        intro w hw
        rcases List.mem_append.mp hw with hw | hw
        · exact (hwf (k', vs) (by simp)).2 w hw
        · rw [List.mem_singleton.mp hw]
          exact hv
      · exact hwf kv (List.mem_cons_of_mem _ hkv)
    · intro kv hkv
      simp only [dictAppend, if_neg h] at hkv
      rcases List.mem_cons.mp hkv with rfl | hkv
      · exact hwf (k', vs) (by simp)
      · exact edgeWF_dictAppend rest k v
          (fun kv h => hwf kv (List.mem_cons_of_mem _ h)) hk hv kv hkv

theorem edgeWF_keyFold (s : Str) (hs : s ≠ []) :
    ∀ (ks : List Str) (d : Dict), edgeWF d → (∀ k ∈ ks, k ≠ ([] : Str)) →
      edgeWF (ks.foldl (fun d k => dictAppend d k s) d)
  | [], _, hwf, _ => hwf
  | k :: ks, d, hwf, hks =>
    edgeWF_keyFold s hs ks _
      (edgeWF_dictAppend d k s hwf (hks k (by simp)) hs)
      (fun k' h => hks k' (List.mem_cons_of_mem _ h))

theorem edgeWF_edgeInsertString (d : Dict) (s : Str) (hwf : edgeWF d) :
    edgeWF (edgeInsertString d s) := by
  rcases eq_or_ne s [] with rfl | hs
  · simpa [edgeInsertString] using hwf
  · rw [edgeInsertString_eq_foldl_keys]
    apply edgeWF_keyFold s hs _ d hwf
    intro k hk
    rcases List.mem_map.mp hk with ⟨i, _, rfl⟩
    simp [List.take_eq_nil_iff, hs]

theorem edgeWF_edgeIndexFold : ∀ (C : List Str) (d : Dict), edgeWF d →
    edgeWF (C.foldl edgeInsertString d)
  | [], _, hwf => hwf
  | s :: C, d, hwf =>
    edgeWF_edgeIndexFold C (edgeInsertString d s)
      (edgeWF_edgeInsertString d s hwf)

theorem dictFind_eq_none_of_edgeWF : ∀ (d : Dict), edgeWF d →
    dictFind d [] = none
  | [], _ => rfl
  | (k, vs) :: rest, hwf => by
    have hk : k ≠ [] := (hwf (k, vs) (by simp)).1
    simp only [dictFind, if_neg hk]
    exact dictFind_eq_none_of_edgeWF rest
      (fun kv h => hwf kv (List.mem_cons_of_mem _ h))

theorem mem_of_dictFind_eq_some : ∀ (d : Dict) (k : Str) (vs : List Str),
    dictFind d k = some vs → (k, vs) ∈ d
  | [], _, _, h => by simp [dictFind] at h
  | (k', vs') :: rest, k, vs, h => by
    by_cases hk : k' = k
    · subst hk
      simp [dictFind] at h
      subst h
      simp
    · simp only [dictFind, if_neg hk] at h
      exact List.mem_cons_of_mem _ (mem_of_dictFind_eq_some rest k vs h)

/-- C10: after any sequence of `index` calls on an `EdgeNGramSuggester`
starting from the empty state, the empty string is never a key of the
index (a zero-length corpus string runs the inner loop zero times), so
`search("")` yields the empty sequence, and no bucket ever stores the
empty string, so no search yields it. -/
theorem edge_empty_string_never_indexed (calls : List (List Str)) :
    dictFind (calls.foldl EdgeNGramSuggester.index ⟨[]⟩).data [] = none ∧
    (calls.foldl EdgeNGramSuggester.index ⟨[]⟩).search [] = [] ∧
    ∀ pre : Str, ([] : Str) ∉ (calls.foldl EdgeNGramSuggester.index ⟨[]⟩).search pre := by
  have hwf : edgeWF (calls.foldl EdgeNGramSuggester.index ⟨[]⟩).data := by
    have : ∀ (cs : List (List Str)) (e : EdgeNGramSuggester), edgeWF e.data →
        edgeWF (cs.foldl EdgeNGramSuggester.index e).data := by
      intro cs
      induction cs with
      | nil => exact fun e h => h
      | cons C cs ih =>
        intro e he
        exact ih (e.index C) (edgeWF_edgeIndexFold C e.data he)
    exact this calls ⟨[]⟩ (by intro kv h; simp at h)
  have hfind := dictFind_eq_none_of_edgeWF _ hwf
  refine ⟨hfind, ?_, ?_⟩
  · rw [edge_search_eq_dictGet]
    simp [dictGet, hfind]
  · intro pre hmem
    rw [edge_search_eq_dictGet] at hmem
    unfold dictGet at hmem
    cases hf : dictFind (calls.foldl EdgeNGramSuggester.index ⟨[]⟩).data pre with
    | none => rw [hf] at hmem; simp at hmem
    | some vs =>
      rw [hf] at hmem
      simp only [Option.getD_some] at hmem
      exact (hwf (pre, vs) (mem_of_dictFind_eq_some _ _ _ hf)).2 [] hmem rfl

theorem dictGet_foldl_dictAppend_counts (v : Str) :
    ∀ (ks : List Str) (d : Dict) (g : Str),
      dictGet (ks.foldl (fun d k => dictAppend d k v) d) g =
        dictGet d g ++ List.replicate (ks.count g) v
  | [], d, g => by simp
  | k :: ks, d, g => by
    rw [List.foldl_cons, dictGet_foldl_dictAppend_counts v ks (dictAppend d k v) g]
    by_cases h : k = g
    · subst h
      rw [dictGet_dictAppend_same, List.count_cons_self, List.append_assoc]
      congr 1
    · rw [dictGet_dictAppend_other d k v g h,
        List.count_cons_of_ne (fun hgk => h hgk.symm)]

theorem ngram_index_single_dictGet (sz : Int) (s g : Str) :
    dictGet (NGramSuggester.index ⟨[], sz⟩ [s]).data g =
      List.replicate ((ngrams s sz '_').count g) s := by
  show dictGet ((ngrams s sz '_').foldl (fun d ng => dictAppend d ng s) []) g = _
  rw [dictGet_foldl_dictAppend_counts]
  simp [dictGet, dictFind]

theorem flatten_map_replicate_self (s : Str) : ∀ (gs : List Str) (m : Str → Nat),
    (gs.map (fun g => List.replicate (m g) s)).flatten =
      List.replicate ((gs.map m).sum) s
  | [], _ => rfl
  | g :: gs, m => by
    simp only [List.map_cons, List.flatten_cons, List.sum_cons]
    rw [flatten_map_replicate_self s gs m, ← List.replicate_add]

theorem foldl_bumpCount_replicate (s : Str) :
    ∀ (n c : Nat), (List.replicate n s).foldl bumpCount [(s, c)] = [(s, c + n)]
  | 0, c => by simp
  | n + 1, c => by
    rw [List.replicate_succ, List.foldl_cons]
    show (List.replicate n s).foldl bumpCount (bumpCount [(s, c)] s) = _
    have hb : bumpCount [(s, c)] s = [(s, c + 1)] := by simp [bumpCount]
    rw [hb, foldl_bumpCount_replicate s n (c + 1)]
    have hc : c + 1 + n = c + (n + 1) := by omega
    rw [hc]

theorem sum_counts_ge : ∀ (l : List Nat), (∀ x ∈ l, 1 ≤ x) → l.length ≤ l.sum
  | [], _ => Nat.le_refl 0
  | x :: l, h => by
    simp only [List.length_cons, List.sum_cons]
    have h1 := h x (by simp)
    have h2 := sum_counts_ge l (fun y hy => h y (List.mem_cons_of_mem _ hy))
    omega

theorem sum_eq_length_of_all_one : ∀ (l : List Nat), (∀ x ∈ l, x = 1) →
    l.sum = l.length
  | [], _ => rfl
  | x :: l, h => by
    simp only [List.sum_cons, List.length_cons,
      sum_eq_length_of_all_one l (fun y hy => h y (List.mem_cons_of_mem _ hy)),
      h x (by simp)]
    omega

theorem ngram_tally_single (sz : Int) (s : Str) :
    NGramSuggester.tally (NGramSuggester.index ⟨[], sz⟩ [s]) s =
      (List.replicate (((ngrams s sz '_').map
        (fun g => (ngrams s sz '_').count g)).sum) s).foldl bumpCount [] := by
  show (ngrams s sz '_').foldl
      (fun acc ng =>
        (dictGet (NGramSuggester.index ⟨[], sz⟩ [s]).data ng).foldl bumpCount acc)
      [] = _
  simp only [ngram_index_single_dictGet]
  rw [← List.foldl_map (fun ng => List.replicate ((ngrams s sz '_').count ng) s)
    (fun acc l => l.foldl bumpCount acc), ← List.foldl_flatten,
    flatten_map_replicate_self]

theorem ngram_search_singleton_tally (g : NGramSuggester) (pre s' : Str)
    (c : Nat) (mp : ℚ) (ht : g.tally pre = [(s', c)]) :
    g.search pre mp =
      if ((c : ℚ) / (((ngrams pre g.ngram_size '_').length : Nat) : ℚ) > mp)
      then [s'] else [] := by
  show ((g.tally pre).filter
      (fun sc => decide ((sc.2 : ℚ) /
        (((ngrams pre g.ngram_size '_').length : Nat) : ℚ) > mp))).map
    Prod.fst = _
  rw [ht]
  by_cases hp :
      (c : ℚ) / (((ngrams pre g.ngram_size '_').length : Nat) : ℚ) > mp
  · rw [if_pos hp]
    simp [hp]
  · rw [if_neg hp]
    simp [hp]

/-- C2 counterexample: on the corpus `["aaa"]` (default `ngram_size = 2`),
`search("aaa", match_percentage=1.0)` yields `{"aaa"}`, not nothing: the
bigram `"aa"` occurs twice, its bucket holds two copies of `"aaa"`, so the
self-overlap score is `5/3 > 1.0`, refuting the claim that the score is
exactly `1.0` and that every `t >= 1.0` yields nothing. -/
theorem ngram_self_search_threshold_counterexample :
    NGramSuggester.search (NGramSuggester.index ⟨[], 2⟩ [str "aaa"])
      (str "aaa") 1 = [str "aaa"] := by
  rw [ngram_search_singleton_tally _ _ (str "aaa") 5 1 (by decide)]
  rw [if_pos]
  have hlen : (ngrams (str "aaa")
      ((NGramSuggester.index ⟨[], 2⟩ [str "aaa"]).ngram_size) '_').length =
      3 := by decide
  rw [hlen]
  norm_num

theorem count_eq_one_of_nodup_mem : ∀ (l : List Str) (g : Str), l.Nodup →
    g ∈ l → l.count g = 1
  | [], g, _, h => absurd h (List.not_mem_nil _)
  | x :: l, g, hnd, h => by
    rcases List.mem_cons.mp h with rfl | h'
    · rw [List.count_cons_self, List.count_eq_zero.mpr (List.nodup_cons.mp hnd).1]
    · rw [List.count_cons_of_ne
        (fun hgx => (List.nodup_cons.mp hnd).1 (by rw [← hgx]; exact h'))]
      exact count_eq_one_of_nodup_mem l g (List.nodup_cons.mp hnd).2 h'

/-- C2 amended: on a corpus of exactly one non-empty string `s` (default
`ngram_size = 2`), `search(s, t)` yields exactly `{s}` for every
`t < 1.0`; the self-overlap score is at least `1.0`, and it is exactly
`1.0` when the bigrams of `s` are pairwise distinct, in which case
`search(s, t)` yields nothing for every `t >= 1.0` (the score must exceed
`t` strictly).  With repeated bigrams the score exceeds `1.0`, so a
threshold `t >= 1.0` below the score still yields `{s}`. -/
theorem ngram_single_corpus_self_search (s : Str) (hs : s ≠ []) (t : ℚ) :
    (t < 1 → (NGramSuggester.index ⟨[], 2⟩ [s]).search s t = [s]) ∧
    ((ngrams s 2 '_').Nodup → 1 ≤ t →
      (NGramSuggester.index ⟨[], 2⟩ [s]).search s t = []) := by
  have hT : (ngrams s 2 '_').length = s.length :=
    ngrams_length_of_pos s 2 '_' (by norm_num)
  have hTpos : 1 ≤ (ngrams s 2 '_').length := by
    rw [hT]
    exact List.length_pos.mpr hs
  set N : Nat := ((ngrams s 2 '_').map
    (fun g => (ngrams s 2 '_').count g)).sum with hNdef
  have hNT : (ngrams s 2 '_').length ≤ N := by
    rw [hNdef]
    calc (ngrams s 2 '_').length
        = ((ngrams s 2 '_').map (fun g => (ngrams s 2 '_').count g)).length := by
          simp
      _ ≤ ((ngrams s 2 '_').map (fun g => (ngrams s 2 '_').count g)).sum := by
          apply sum_counts_ge
          intro x hx
          rcases List.mem_map.mp hx with ⟨g, hg, rfl⟩
          exact List.count_pos_iff.mpr hg
  have htally : NGramSuggester.tally (NGramSuggester.index ⟨[], 2⟩ [s]) s =
      [(s, N)] := by
    rw [ngram_tally_single, ← hNdef]
    obtain ⟨n, hn⟩ : ∃ n, N = n + 1 := ⟨N - 1, by omega⟩
    rw [hn, List.replicate_succ, List.foldl_cons]
    show (List.replicate n s).foldl bumpCount (bumpCount [] s) = _
    have hb : bumpCount [] s = [(s, 1)] := rfl
    rw [hb, foldl_bumpCount_replicate]
    have hsum : 1 + n = n + 1 := by omega
    rw [hsum]
  have hsearch : ∀ u : ℚ,
      (NGramSuggester.index ⟨[], 2⟩ [s]).search s u =
        if ((N : ℚ) / (((ngrams s 2 '_').length : Nat) : ℚ) > u) then [s]
        else [] := by
    intro u
    show ((NGramSuggester.tally (NGramSuggester.index ⟨[], 2⟩ [s]) s).filter
        (fun sc => decide ((sc.2 : ℚ) / (((ngrams s 2 '_').length : Nat) : ℚ)
          > u))).map Prod.fst = _
    rw [htally]
    by_cases hp : (N : ℚ) / (((ngrams s 2 '_').length : Nat) : ℚ) > u
    · rw [if_pos hp]
      simp [hp]
    · rw [if_neg hp]
      simp [hp]
  have hTQpos : (0 : ℚ) < (((ngrams s 2 '_').length : Nat) : ℚ) :=
    Nat.cast_pos.mpr (by omega)
  constructor
  · intro ht
    rw [hsearch t, if_pos]
    have h1 : (1 : ℚ) ≤ (N : ℚ) / (((ngrams s 2 '_').length : Nat) : ℚ) := by
      rw [one_le_div hTQpos]
      exact_mod_cast hNT
    exact lt_of_lt_of_le ht h1
  · intro hnd ht
    have hNeq : N = (ngrams s 2 '_').length := by
      rw [hNdef]
      calc ((ngrams s 2 '_').map (fun g => (ngrams s 2 '_').count g)).sum
          = ((ngrams s 2 '_').map
              (fun g => (ngrams s 2 '_').count g)).length := by
            apply sum_eq_length_of_all_one
            intro x hx
            rcases List.mem_map.mp hx with ⟨g, hg, rfl⟩
            exact count_eq_one_of_nodup_mem _ g hnd hg
        _ = (ngrams s 2 '_').length := by simp
    rw [hsearch t, if_neg]
    rw [hNeq, div_self (ne_of_gt hTQpos)]
    exact not_lt.mpr ht

/-- C2 amended witness: on the corpus `["ab"]`, `search("ab", 1/2)` yields
`["ab"]`, and since the bigrams `["_a", "ab"]` are distinct,
`search("ab", 1)` yields nothing. -/
theorem ngram_single_corpus_self_search_witness :
    (NGramSuggester.index ⟨[], 2⟩ [str "ab"]).search (str "ab") (1 / 2) =
      [str "ab"] ∧
    (NGramSuggester.index ⟨[], 2⟩ [str "ab"]).search (str "ab") 1 = [] :=
  ⟨(ngram_single_corpus_self_search (str "ab") (by decide) (1 / 2)).1
      (by norm_num),
   (ngram_single_corpus_self_search (str "ab") (by decide) 1).2 (by decide)
      (le_refl 1)⟩

theorem getD_eq_getElem_of_lt (l : List Str) (i : Nat) (h : i < l.length) :
    l.getD i [] = l[i] := by
  rw [List.getD_eq_getElem?_getD, List.getElem?_eq_getElem h]
  rfl

theorem pairwise_getD_le (l : List Str) (h : List.Pairwise strLeP l)
    (i j : Nat) (hij : i ≤ j) (hj : j < l.length) :
    strLe (l.getD i []) (l.getD j []) = true := by
  rcases Nat.eq_or_lt_of_le hij with rfl | hij'
  · exact strLe_refl _
  · have hi : i < l.length := lt_trans hij' hj
    rw [getD_eq_getElem_of_lt l i hi, getD_eq_getElem_of_lt l j hj]
    exact List.pairwise_iff_getElem.mp h i j hi hj hij'

theorem bisectLeft_post (a : List Str) (x : Str)
    (hsort : List.Pairwise strLeP a) :
    ∀ (n lo hi : Nat), hi - lo ≤ n → lo ≤ hi → hi ≤ a.length →
      (∀ i, i < lo → strLt (a.getD i []) x = true) →
      (∀ i, hi ≤ i → i < a.length → strLt (a.getD i []) x = false) →
      (lo ≤ bisectLeft a x lo hi ∧ bisectLeft a x lo hi ≤ hi) ∧
      (∀ i, i < bisectLeft a x lo hi → strLt (a.getD i []) x = true) ∧
      (∀ i, bisectLeft a x lo hi ≤ i → i < a.length →
        strLt (a.getD i []) x = false)
  | 0, lo, hi, hn, hlohi, hhi, hlow, hhigh => by
    have hnlt : ¬ lo < hi := by omega
    unfold bisectLeft
    rw [dif_neg hnlt]
    exact ⟨⟨le_refl lo, hlohi⟩, hlow, fun i h1 h2 => hhigh i (by omega) h2⟩
  | n + 1, lo, hi, hn, hlohi, hhi, hlow, hhigh => by
    unfold bisectLeft
    by_cases hlt : lo < hi
    · rw [dif_pos hlt]
      have hmid1 : lo ≤ (lo + hi) / 2 :=
        (Nat.le_div_iff_mul_le (by omega)).mpr (by omega)
      have hmid2 : (lo + hi) / 2 < hi :=
        (Nat.div_lt_iff_lt_mul (by omega)).mpr (by omega)
      by_cases hc : strLt (a.getD ((lo + hi) / 2) []) x = true
      · rw [if_pos hc]
        have hrec := bisectLeft_post a x hsort n ((lo + hi) / 2 + 1) hi
          (by omega) (by omega) hhi
          (by
            intro i hi2
            rcases lt_or_ge i lo with hi3 | hi3
            · exact hlow i hi3
            · exact strLt_of_le_of_lt
                (pairwise_getD_le a hsort i ((lo + hi) / 2) (by omega)
                  (by omega)) hc)
          hhigh
        exact ⟨⟨by omega, hrec.1.2⟩, hrec.2.1, hrec.2.2⟩
      · rw [if_neg hc]
        have hc' : strLt (a.getD ((lo + hi) / 2) []) x = false :=
          Bool.eq_false_iff.mpr hc
        have hrec := bisectLeft_post a x hsort n lo ((lo + hi) / 2)
          (by omega) (by omega) (by omega) hlow
          (by
            intro i hmi hlen
            exact strLe_of_le_of_not_lt
              (pairwise_getD_le a hsort ((lo + hi) / 2) i hmi hlen) hc')
        exact ⟨⟨hrec.1.1, by omega⟩, hrec.2.1, hrec.2.2⟩
    · rw [dif_neg hlt]
      exact ⟨⟨le_refl lo, hlohi⟩, hlow, fun i h1 h2 => hhigh i (by omega) h2⟩

theorem filter_eq_takeWhile_sorted (p : Str) : ∀ (l : List Str),
    List.Pairwise strLeP l → (∀ x ∈ l, strLe p x = true) →
    l.filter (fun s => p.isPrefixOf s) = l.takeWhile (fun s => p.isPrefixOf s)
  | [], _, _ => rfl
  | a :: l, hp, hall => by
    rw [List.filter_cons, List.takeWhile_cons]
    cases hpa : p.isPrefixOf a with
    | false =>
      rw [if_neg (by simp [hpa]), if_neg (by simp [hpa])]
      rw [List.filter_eq_nil_iff]
      intro b hb hpb
      have hab : strLe a b = true := (List.pairwise_cons.mp hp).1 b hb
      have hpa' : p.isPrefixOf a = true :=
        isPrefixOf_of_between p a b (hall a (by simp)) hab hpb
      rw [hpa] at hpa'
      exact absurd hpa' (by simp)
    | true =>
      rw [if_pos (by simp [hpa]), if_pos (by simp [hpa])]
      congr 1
      exact filter_eq_takeWhile_sorted p l (List.pairwise_cons.mp hp).2
        (fun x hx => hall x (List.mem_cons_of_mem _ hx))

theorem binSearch_eq_filter (l : List Str) (hsort : List.Pairwise strLeP l)
    (p : Str) :
    (l.drop (bisectLeft l p 0 l.length)).takeWhile (fun s => p.isPrefixOf s) =
      l.filter (fun s => p.isPrefixOf s) := by
  obtain ⟨⟨hb1, hb2⟩, hp1, hp2⟩ := bisectLeft_post l p hsort l.length 0
    l.length (by omega) (by omega) (le_refl _)
    (fun i hi => absurd hi (Nat.not_lt_zero i))
    (fun i h1 h2 => absurd h1 (by omega))
  conv_rhs => rw [← List.take_append_drop (bisectLeft l p 0 l.length) l]
  rw [List.filter_append]
  have h1 : (l.take (bisectLeft l p 0 l.length)).filter
      (fun s => p.isPrefixOf s) = [] := by
    rw [List.filter_eq_nil_iff]
    intro b hb hpb
    rcases List.mem_iff_getElem.mp hb with ⟨i, hilen, hib⟩
    have hik : i < bisectLeft l p 0 l.length := by
      rw [List.length_take] at hilen
      omega
    have hil : i < l.length := by
      rw [List.length_take] at hilen
      omega
    have hbi : l.getD i [] = b := by
      rw [getD_eq_getElem_of_lt l i hil, ← hib, List.getElem_take]
    have hlt := hp1 i hik
    rw [hbi, strLt_eq_not_strLe, strLe_of_isPrefixOf p b hpb] at hlt
    simp at hlt
  rw [h1, List.nil_append]
  refine (filter_eq_takeWhile_sorted p _ ?_ ?_).symm
  · exact hsort.sublist (List.drop_sublist _ l)
  · intro x hx
    rcases List.mem_iff_getElem.mp hx with ⟨j, hj, hjx⟩
    have hjlen : bisectLeft l p 0 l.length + j < l.length := by
      rw [List.length_drop] at hj
      omega
    have hxi : l.getD (bisectLeft l p 0 l.length + j) [] = x := by
      rw [getD_eq_getElem_of_lt l _ hjlen, List.getElem_drop' l, hjx]
    have hflt := hp2 (bisectLeft l p 0 l.length + j) (by omega) hjlen
    rw [hxi, strLt_eq_not_strLe] at hflt
    simpa using hflt

theorem foldl_push_eq_append : ∀ (l : List Str) (d : List Str),
    l.foldl (fun d s => d ++ [s]) d = d ++ l
  | [], d => by simp
  | s :: l, d => by
    rw [List.foldl_cons, foldl_push_eq_append l (d ++ [s])]
    simp

theorem bin_fold_sorted : ∀ (calls : List (List Str))
    (bb : BinarySearchSuggester), List.Pairwise strLeP bb.data →
    List.Pairwise strLeP (calls.foldl BinarySearchSuggester.index bb).data
  | [], _, h => h
  | c :: calls, bb, _ =>
    bin_fold_sorted calls (bb.index c) (bin_index_sorted_aux bb c)

theorem bin_brute_perm : ∀ (calls : List (List Str))
    (bb : BinarySearchSuggester) (bf : BruteForceSuggester),
    bb.data.Perm bf.data →
    ((calls.foldl BinarySearchSuggester.index bb).data).Perm
      ((calls.foldl BruteForceSuggester.index bf).data)
  | [], _, _, h => h
  | c :: calls, bb, bf, h => by
    apply bin_brute_perm calls
    show (pySort (c.foldl (fun d s => d ++ [s]) bb.data)).Perm
      (c.foldl (fun d s => d ++ [s]) bf.data)
    rw [foldl_push_eq_append, foldl_push_eq_append]
    exact (List.perm_insertionSort strLeP _).trans (h.append_right c)

/-- C1: for every sequence of `index` calls fed identically to a
`BinarySearchSuggester` and a `BruteForceSuggester`, and every query `p`,
the two `search` results (fully consumed) contain exactly the same
strings: the binary-search scan over the sorted, permuted corpus yields
precisely the prefix-matching entries that the linear scan yields. -/
theorem bin_brute_search_same_set (calls : List (List Str)) (p s : Str) :
    s ∈ (calls.foldl BinarySearchSuggester.index ⟨[]⟩).search p ↔
      s ∈ (calls.foldl BruteForceSuggester.index ⟨[]⟩).search p := by
  have hsort := bin_fold_sorted calls ⟨[]⟩ (by simp)
  have hperm := bin_brute_perm calls ⟨[]⟩ ⟨[]⟩ (List.Perm.refl [])
  show s ∈ ((calls.foldl BinarySearchSuggester.index ⟨[]⟩).data.drop
      (bisectLeft (calls.foldl BinarySearchSuggester.index ⟨[]⟩).data p 0
        (calls.foldl BinarySearchSuggester.index ⟨[]⟩).data.length)).takeWhile
      (fun s => p.isPrefixOf s) ↔
    s ∈ (calls.foldl BruteForceSuggester.index ⟨[]⟩).data.filter
      (fun s => p.isPrefixOf s)
  rw [binSearch_eq_filter _ hsort p]
  exact (hperm.filter _).mem_iff
